import Mathlib

/-!
Verification development for the MMT phrase-based decoder consistency core
(`src/decoder-phrasebased/src/native/decoder/moses/MosesDecoder.h`).

The repository exposes `MosesDecoder` as an abstract interface (pure virtual
methods); the concrete engine implementation is not part of the sources, so
the operations below are modelled from the specification of the contract
(feature weight registry, channel cursor registry, model update applier,
translation request processor), faithfully following its wording.  The only
piece of concrete code in the header is the sentinel constant
`UNTUNEABLE_COMPONENT = FLT_MAX`, which is embedded directly.
-/

/-- `mmt::channel_t`: integer key identifying an update channel. -/
abbrev channel_t := Int

/-- `mmt::seqid_t`: monotonic sequence number (position) within a channel. -/
abbrev seqid_t := Int

/-- `mmt::memory_t`: identifier of a unit of translation training data. -/
abbrev memory_t := Int

/-- `mmt::alignment_t`: word alignment, a set of (source index, target index) pairs. -/
abbrev alignment_t := List (Nat × Nat)

/-- `raw_translation_unit` from `MosesDecoder.h`: one training example carried
by an update batch (channel, position, originating memory, source text, target
text, word alignment). -/
structure raw_translation_unit where
  channel : channel_t
  position : seqid_t
  memory : memory_t
  source : String
  target : String
  alignment : alignment_t
deriving DecidableEq, Repr

/-- Modelled from the spec: `mmt::deletion` (declared but not defined under
`src/`), a Deletion Record identifying a previously-applied memory, with its
channel and position. -/
structure deletion where
  channel : channel_t
  position : seqid_t
  memory : memory_t
deriving DecidableEq, Repr

/-- One entry of the underlying model's training data: the content a
`raw_translation_unit` contributes once applied. -/
structure TMEntry where
  memory : memory_t
  source : String
  target : String
  alignment : alignment_t
deriving DecidableEq, Repr

/-- Modelled from the spec: the underlying incremental model (the external
`mmt::IncrementalModel` collaborator).  `entries` is the applied training
content; `poison` is an abstract failure oracle: memories whose application
hits a model-level corruption ("underlying index in an inconsistent state"),
which is fatal and surfaced as `UpdateApplyError`. -/
structure Model where
  entries : List TMEntry
  poison : List memory_t
deriving DecidableEq, Repr

/-- Channel Cursor Registry content: association list channel ↦ last applied
position. -/
abbrev Cursor := List (channel_t × seqid_t)

/-- Position recorded for a channel; `-1` when the channel was never seen. -/
def curPos (c : Cursor) (ch : channel_t) : seqid_t :=
  match c with
  | [] => -1
  | (k, v) :: rest => if k = ch then v else curPos rest ch

/-- Record position `p` for channel `ch`, replacing an existing entry. -/
def setPos (c : Cursor) (ch : channel_t) (p : seqid_t) : Cursor :=
  match c with
  | [] => [(ch, p)]
  | (k, v) :: rest => if k = ch then (ch, p) :: rest else (k, v) :: setPos rest ch p

/-- Advance the cursor to the batch's channel positions; a position that is
not strictly greater than the recorded one is skipped (idempotent replay). -/
def advanceAll (c : Cursor) (poss : List (channel_t × seqid_t)) : Cursor :=
  poss.foldl (fun acc chp => if curPos acc chp.1 < chp.2 then setPos acc chp.1 chp.2 else acc) c

/-- Feature weight vector: ordered sequence of weights (floats modelled as
rationals). -/
abbrev WeightVector := List ℚ

/-- Feature Weight Registry mapping: feature name ↦ weight vector. -/
abbrev WeightMap := List (String × WeightVector)

/-- Lookup of a feature name in a weight mapping. -/
def lookupW (m : WeightMap) (name : String) : Option WeightVector :=
  match m with
  | [] => none
  | (k, v) :: rest => if k = name then some v else lookupW rest name

/-- Modelled from the spec: the overlay used by `setDefaultFeatureWeights` /
`publishDefaultWeights`: the new live mapping is built by overlaying the given
entries onto the previous set; entries not present in the argument are
unchanged. -/
def overlay (arg prev : WeightMap) : WeightMap :=
  prev.map (fun kv => (kv.1, (lookupW arg kv.1).getD kv.2))

/-- `UpdateApplyError`: the underlying model could not absorb a batch; fatal
to the batch. -/
inductive UpdateApplyError where
  | modelFailure
deriving DecidableEq, Repr

/-- `UnknownFeatureError`: an operation referenced a feature name the registry
does not recognize. -/
inductive UnknownFeatureError where
  | unknownFeature
deriving DecidableEq, Repr

/-- Modelled from the spec: the in-memory engine state behind the
`MosesDecoder` interface: the config-origin weight definition (never mutated
at runtime), the live weight mapping, the underlying model and the Channel
Cursor Registry. -/
structure EngineState where
  configWeights : WeightMap
  liveWeights : WeightMap
  model : Model
  cursor : Cursor
deriving DecidableEq, Repr

/-- Splitting a character list at spaces (accumulator holds the current token
reversed). -/
def tokensAux : List Char → List Char → List (List Char)
  | [], cur => [cur.reverse]
  | c :: rest, cur =>
    if c = ' ' then cur.reverse :: tokensAux rest [] else tokensAux rest (c :: cur)

/-- Space-separated tokenization of a source/target sentence. -/
def tokens (s : String) : List String := (tokensAux s.data []).map (fun l => String.mk l)

/-- Structural validity of an update record: every alignment pair must index
inside the record's source and target token counts. -/
def wellFormedUnit (u : raw_translation_unit) : Bool :=
  u.alignment.all (fun p =>
    decide (p.1 < (tokens u.source).length) && decide (p.2 < (tokens u.target).length))

/-- The model entry contributed by an applied update record. -/
def toEntry (u : raw_translation_unit) : TMEntry :=
  { memory := u.memory, source := u.source, target := u.target, alignment := u.alignment }

/-- Modelled from the spec: apply a list of deletions to the model, removing
every entry of each deleted memory; fails fatally on a poisoned memory. -/
def applyDeletions (m : Model) : List deletion → Except UpdateApplyError Model
  | [] => .ok m
  | d :: rest =>
    if d.memory ∈ m.poison then .error .modelFailure
    else applyDeletions
      { m with entries := m.entries.filter (fun e => decide (e.memory ≠ d.memory)) } rest

/-- Modelled from the spec: apply a list of additions to the model, appending
each record's entry; fails fatally on a poisoned memory. -/
def applyAdditions (m : Model) : List raw_translation_unit → Except UpdateApplyError Model
  | [] => .ok m
  | u :: rest =>
    if u.memory ∈ m.poison then .error .modelFailure
    else applyAdditions { m with entries := m.entries ++ [toEntry u] } rest

/-- Deletion records not yet covered by the channel cursor (the others are
silently skipped: idempotent replay of an at-least-once feed). -/
def freshDels (c : Cursor) (dels : List deletion) : List deletion :=
  dels.filter (fun d => decide (curPos c d.channel < d.position))

/-- Update records not yet covered by the channel cursor (the others are
silently skipped: idempotent replay of an at-least-once feed). -/
def freshUnits (c : Cursor) (units : List raw_translation_unit) : List raw_translation_unit :=
  units.filter (fun u => decide (curPos c u.channel < u.position))

/-- Modelled from the spec: `MosesDecoder::DeliverUpdates` (pure virtual in
the header; the Model Update Applier is specified by contract).  Records whose
position is not beyond the channel cursor are silently skipped (idempotent
replay); structurally malformed records are dropped per-record; all deletions
are applied before any additions; on success the cursor is advanced to the
batch's channel positions; a fatal model error leaves the state (model and
cursor) untouched, returning the error alongside the unchanged state.
`applyBatch` is the staged (write-ahead) application of a batch to the model:
all fresh deletions first, then all fresh structurally-valid additions. -/
def applyBatch (m : Model) (c : Cursor) (units : List raw_translation_unit)
    (dels : List deletion) : Except UpdateApplyError Model :=
  match applyDeletions m (freshDels c dels) with
  | .error e => .error e
  | .ok m1 => applyAdditions m1 ((freshUnits c units).filter wellFormedUnit)

/-- Modelled from the spec: `MosesDecoder::DeliverUpdates` itself: the staged
model application commits together with the cursor advance; on a fatal error
nothing commits. -/
def DeliverUpdates (s : EngineState) (units : List raw_translation_unit)
    (dels : List deletion) (poss : List (channel_t × seqid_t)) :
    EngineState × Option UpdateApplyError :=
  match applyBatch s.model s.cursor units dels with
  | .error e => (s, some e)
  | .ok m2 => ({ s with model := m2, cursor := advanceAll s.cursor poss }, none)

/-- `MosesDecoder::GetLatestUpdatesIdentifiers`: the latest applied position
per channel. -/
def GetLatestUpdatesIdentifiers (s : EngineState) : Cursor := s.cursor

/-- Modelled from the spec: `MosesDecoder::setDefaultFeatureWeights` (pure
virtual in the header): atomically replaces the live mapping by overlaying the
argument onto the previous set; the config-origin definition is untouched. -/
def setDefaultFeatureWeights (s : EngineState) (featureWeights : WeightMap) : EngineState :=
  { s with liveWeights := overlay featureWeights s.liveWeights }

/-- Modelled from the spec: `MosesDecoder::getFeatureWeights` (pure virtual in
the header): the live weight vector of a registered feature, otherwise
`UnknownFeatureError`; no state is mutated (the operation is read-only). -/
def getFeatureWeights (s : EngineState) (name : String) :
    Except UnknownFeatureError WeightVector :=
  match lookupW s.liveWeights name with
  | some v => .ok v
  | none => .error .unknownFeature

/-- `hypothesis_t` from `MosesDecoder.h`: surface text, score, serialized
per-feature score breakdown. -/
structure hypothesis_t where
  text : String
  score : ℚ
  fvals : String
deriving DecidableEq, Repr

/-- `translation_t` from `MosesDecoder.h`: echoed source text, session id,
ordered hypotheses, word alignment of the top hypothesis. -/
structure translation_t where
  text : String
  session : Int
  hypotheses : List hypothesis_t
  alignment : List (Nat × Nat)
deriving DecidableEq, Repr

/-- Modelled from the spec: the deterministic total ranking order on
candidates paired with their discovery index: descending score, ties broken
by hypothesis text, then by discovery order. -/
def hypLE (a b : hypothesis_t × Nat) : Prop :=
  b.1.score < a.1.score ∨ (a.1.score = b.1.score ∧
    (a.1.text < b.1.text ∨ (a.1.text = b.1.text ∧ a.2 ≤ b.2)))

instance : DecidableRel hypLE := fun a b => by unfold hypLE; infer_instance

instance : IsTotal (hypothesis_t × Nat) hypLE := by
  constructor
  intro a b
  rcases lt_trichotomy a.1.score b.1.score with h | h | h
  · exact Or.inr (Or.inl h)
  · rcases lt_trichotomy a.1.text b.1.text with ht | ht | ht
    · exact Or.inl (Or.inr ⟨h, Or.inl ht⟩)
    · rcases Nat.le_total a.2 b.2 with hn | hn
      · exact Or.inl (Or.inr ⟨h, Or.inr ⟨ht, hn⟩⟩)
      · exact Or.inr (Or.inr ⟨h.symm, Or.inr ⟨ht.symm, hn⟩⟩)
    · exact Or.inr (Or.inr ⟨h.symm, Or.inl ht⟩)
  · exact Or.inl (Or.inl h)

instance : IsTrans (hypothesis_t × Nat) hypLE := by
  constructor
  intro a b c hab hbc
  rcases hab with h1 | ⟨hs1, h1⟩
  · rcases hbc with h2 | ⟨hs2, _⟩
    · exact Or.inl (h2.trans h1)
    · exact Or.inl (by rw [← hs2]; exact h1)
  · rcases hbc with h2 | ⟨hs2, h2⟩
    · exact Or.inl (by rw [hs1]; exact h2)
    · refine Or.inr ⟨hs1.trans hs2, ?_⟩
      rcases h1 with ht1 | ⟨he1, hn1⟩
      · rcases h2 with ht2 | ⟨he2, _⟩
        · exact Or.inl (ht1.trans ht2)
        · exact Or.inl (by rw [← he2]; exact ht1)
      · rcases h2 with ht2 | ⟨he2, hn2⟩
        · exact Or.inl (by rw [he1]; exact ht2)
        · exact Or.inr ⟨he1.trans he2, hn1.trans hn2⟩

/-- Hypothesis returned for an empty search result (the empty translation,
not an error). -/
def emptyHyp : hypothesis_t := { text := "", score := 0, fvals := "" }

/-- Modelled from the spec: rank the external engine's candidates (taken in
discovery order) under the deterministic total order `hypLE`. -/
def rankHyps (candidates : List hypothesis_t) : List (hypothesis_t × Nat) :=
  List.insertionSort hypLE ((candidates.enum).map (fun p => (p.2, p.1)))

/-- Modelled from the spec: assemble the result's hypothesis list: exactly one
top hypothesis always, plus up to `nbest` additional ranked hypotheses. -/
def assembleHyps (candidates : List hypothesis_t) (nbest : Nat) : List hypothesis_t :=
  match rankHyps candidates with
  | [] => [emptyHyp]
  | top :: rest => (top :: rest.take nbest).map Prod.fst

/-- Modelled from the spec: `MosesDecoder::translate` (pure virtual in the
header).  `search` is the external scoring/search collaborator producing
candidate hypotheses from a point-in-time snapshot of the engine state, the
source text and the per-request context weights; the Translation Request
Processor ranks them and assembles the result.  Session handling and
top-hypothesis alignment are outside the scope of the properties below. -/
def MosesDecoder.translate
    (search : EngineState → String → Option (List (String × ℚ)) → List hypothesis_t)
    (s : EngineState) (text : String) (translationContext : Option (List (String × ℚ)))
    (nbestListSize : Nat) : translation_t :=
  { text := text
    session := 0
    hypotheses := assembleHyps (search s text translationContext) nbestListSize
    alignment := [] }

/-- Modelled from the spec: state of the interleaving model for the weight
publish guarantee: the live weight mapping, and the snapshot each translate
request captured when it began (the request's entire score breakdown is
computed from that one snapshot). -/
structure TraceState where
  live : WeightMap
  snaps : List (Nat × WeightMap)
deriving DecidableEq, Repr

/-- Modelled from the spec: atomic events of an interleaved execution: a
translate request capturing its snapshot, or the publish of a new default
weight set. -/
inductive WEvent where
  | beginReq (rid : Nat)
  | publish (arg : WeightMap)
deriving DecidableEq, Repr

/-- One atomic step of the interleaving model. -/
def wstep (s : TraceState) : WEvent → TraceState
  | .beginReq rid => { s with snaps := s.snaps ++ [(rid, s.live)] }
  | .publish arg => { s with live := overlay arg s.live }

/-- Run a trace of interleaved events. -/
def runTrace (s : TraceState) (tr : List WEvent) : TraceState := tr.foldl wstep s

/-- The request ids that begin in a trace, in order. -/
def begins : List WEvent → List Nat
  | [] => []
  | WEvent.beginReq r :: t => r :: begins t
  | WEvent.publish _ :: t => begins t

/-- Whether an event is a request begin (as opposed to a publish). -/
def isBeginEvent : WEvent → Bool
  | .beginReq _ => true
  | .publish _ => false

/-- A trace fragment containing no publish event. -/
def onlyBegins (tr : List WEvent) : Bool := tr.all isBeginEvent

/-- The maximal finite IEEE-754 single-precision value `FLT_MAX`
(`(2^24 - 1) * 2^104`), as a rational. -/
def FLT_MAX : ℚ := (2 ^ 24 - 1) * 2 ^ 104

/-- `MosesDecoder::UNTUNEABLE_COMPONENT = FLT_MAX` (`MosesDecoder.h`, line 56):
sentinel weight component marking a feature component as not tunable. -/
def UNTUNEABLE_COMPONENT : ℚ := FLT_MAX

/-- The finite IEEE-754 single-precision values, as rationals: `m * 2^e` with
`|m| ≤ 2^24 - 1` and `-149 ≤ e ≤ 104` (this set is exactly the set of finite
float values; `e` ranges up to 104 because `FLT_MAX = (2^24 - 1) * 2^104`). -/
def isFloat32 (q : ℚ) : Prop :=
  ∃ m e : ℤ, |m| ≤ 2 ^ 24 - 1 ∧ -149 ≤ e ∧ e ≤ 104 ∧ q = (m : ℚ) * (2 : ℚ) ^ e

theorem curPos_setPos (c : Cursor) (ch ch2 : channel_t) (p : seqid_t) :
    curPos (setPos c ch p) ch2 = if ch = ch2 then p else curPos c ch2 := by
  induction c with
  | nil => simp [setPos, curPos]
  | cons hd tl ih =>
    obtain ⟨k, v⟩ := hd
    by_cases hk : k = ch
    · subst hk
      simp only [setPos, if_pos rfl, curPos]
      by_cases h2 : k = ch2
      · simp [h2]
      · simp [h2, curPos]
    · simp only [setPos, if_neg hk, curPos]
      by_cases h2 : k = ch2
      · subst h2
        have : ¬ ch = k := fun h => hk h.symm
        simp [this]
      · simp [h2, ih]

theorem curPos_le_advanceAll (poss : List (channel_t × seqid_t)) (c : Cursor)
    (ch : channel_t) : curPos c ch ≤ curPos (advanceAll c poss) ch := by
  induction poss generalizing c with
  | nil => simp [advanceAll]
  | cons hd tl ih =>
    have hstep : advanceAll c (hd :: tl) =
        advanceAll (if curPos c hd.1 < hd.2 then setPos c hd.1 hd.2 else c) tl := rfl
    rw [hstep]
    refine le_trans ?_ (ih _)
    by_cases h : curPos c hd.1 < hd.2
    · rw [if_pos h, curPos_setPos]
      by_cases he : hd.1 = ch
      · rw [if_pos he]; rw [he] at h; exact le_of_lt h
      · rw [if_neg he]
    · rw [if_neg h]

theorem advanceAll_mem_le (poss : List (channel_t × seqid_t)) (c : Cursor)
    (ch : channel_t) (p : seqid_t) (hmem : (ch, p) ∈ poss) :
    p ≤ curPos (advanceAll c poss) ch := by
  induction poss generalizing c with
  | nil => cases hmem
  | cons hd tl ih =>
    have hstep : advanceAll c (hd :: tl) =
        advanceAll (if curPos c hd.1 < hd.2 then setPos c hd.1 hd.2 else c) tl := rfl
    rw [hstep]
    rcases List.mem_cons.mp hmem with heq | htl
    · subst heq
      refine le_trans ?_ (curPos_le_advanceAll tl _ ch)
      by_cases h : curPos c ch < p
      · simp only [if_pos h, curPos_setPos, if_pos rfl]; exact le_refl p
      · simp only [if_neg h]; exact not_lt.mp h
    · exact ih _ htl

theorem advanceAll_eq_self (c : Cursor) (poss : List (channel_t × seqid_t))
    (h : ∀ chp ∈ poss, chp.2 ≤ curPos c chp.1) : advanceAll c poss = c := by
  induction poss with
  | nil => rfl
  | cons hd tl ih =>
    have hno : ¬ curPos c hd.1 < hd.2 := not_lt.mpr (h hd (List.mem_cons_self hd tl))
    have hstep : advanceAll c (hd :: tl) =
        advanceAll (if curPos c hd.1 < hd.2 then setPos c hd.1 hd.2 else c) tl := rfl
    rw [hstep, if_neg hno]
    exact ih (fun chp hm => h chp (List.mem_cons_of_mem hd hm))

theorem DeliverUpdates_of_error (s : EngineState) (units : List raw_translation_unit)
    (dels : List deletion) (poss : List (channel_t × seqid_t)) (e : UpdateApplyError)
    (h : applyBatch s.model s.cursor units dels = .error e) :
    DeliverUpdates s units dels poss = (s, some e) := by
  unfold DeliverUpdates
  rw [h]

theorem DeliverUpdates_of_ok (s : EngineState) (units : List raw_translation_unit)
    (dels : List deletion) (poss : List (channel_t × seqid_t)) (m2 : Model)
    (h : applyBatch s.model s.cursor units dels = .ok m2) :
    DeliverUpdates s units dels poss =
      ({ s with model := m2, cursor := advanceAll s.cursor poss }, none) := by
  unfold DeliverUpdates
  rw [h]

/-- C3: for every channel and every `DeliverUpdates` call, the position
reported by `GetLatestUpdatesIdentifiers` for that channel after the call is
greater than or equal to the position reported before it (hence it is
monotonically non-decreasing across any sequence of calls). -/
theorem DeliverUpdates_cursor_monotone (s : EngineState)
    (units : List raw_translation_unit) (dels : List deletion)
    (poss : List (channel_t × seqid_t)) (ch : channel_t) :
    curPos (GetLatestUpdatesIdentifiers s) ch ≤
      curPos (GetLatestUpdatesIdentifiers (DeliverUpdates s units dels poss).1) ch := by
  cases h : applyBatch s.model s.cursor units dels with
  | error e =>
    rw [DeliverUpdates_of_error s units dels poss e h]
  | ok m2 =>
    rw [DeliverUpdates_of_ok s units dels poss m2 h]
    exact curPos_le_advanceAll poss s.cursor ch

/-- C4: when a `DeliverUpdates` batch fails with a fatal model-level error
(`UpdateApplyError`), the Channel Cursor Registry (indeed the whole engine
state) is left unchanged from its pre-batch value, so the batch can be safely
retried. -/
theorem DeliverUpdates_error_cursor_unchanged (s : EngineState)
    (units : List raw_translation_unit) (dels : List deletion)
    (poss : List (channel_t × seqid_t)) (e : UpdateApplyError)
    (h : (DeliverUpdates s units dels poss).2 = some e) :
    GetLatestUpdatesIdentifiers (DeliverUpdates s units dels poss).1 =
      GetLatestUpdatesIdentifiers s := by
  cases hb : applyBatch s.model s.cursor units dels with
  | error e2 =>
    rw [DeliverUpdates_of_error s units dels poss e2 hb]
  | ok m2 =>
    rw [DeliverUpdates_of_ok s units dels poss m2 hb] at h
    cases h

/-- Engine state used by the retry example: empty model whose failure oracle
rejects memory 5, empty cursor. -/
def exPoisonState : EngineState :=
  { configWeights := [], liveWeights := []
    model := { entries := [], poison := [5] }, cursor := [] }

/-- Update record touching the poisoned memory 5. -/
def exPoisonUnit : raw_translation_unit :=
  { channel := 1, position := 0, memory := 5, source := "a", target := "b", alignment := [] }

/-- Witness for C4: a concrete batch hitting the model failure oracle fails
fatally and the cursor is unchanged. -/
theorem DeliverUpdates_error_cursor_unchanged_witness :
    GetLatestUpdatesIdentifiers (DeliverUpdates exPoisonState [exPoisonUnit] [] [(1, 0)]).1 =
      GetLatestUpdatesIdentifiers exPoisonState :=
  DeliverUpdates_error_cursor_unchanged exPoisonState [exPoisonUnit] [] [(1, 0)]
    UpdateApplyError.modelFailure (by decide)

theorem filter_wf_fresh (c : Cursor) (units : List raw_translation_unit) :
    (freshUnits c units).filter wellFormedUnit =
      (freshUnits c (units.filter wellFormedUnit)).filter wellFormedUnit := by
  unfold freshUnits
  induction units with
  | nil => rfl
  | cons hd tl ih =>
    by_cases h1 : wellFormedUnit hd = true
    · by_cases h2 : curPos c hd.channel < hd.position
      · simp [List.filter_cons, h1, h2, ih]
      · simp [List.filter_cons, h1, h2, ih]
    · by_cases h2 : curPos c hd.channel < hd.position
      · simp [List.filter_cons, h1, h2, ih]
      · simp [List.filter_cons, h1, h2, ih]

/-- C8: a structurally malformed record (alignment indices out of bounds for
the record's token counts) is dropped by itself: the batch behaves exactly as
if the malformed records were not present (so every other record applies and
the batch is never aborted by them), and a successful batch still advances the
cursor to (at least) every channel position it carries. -/
theorem DeliverUpdates_malformed_record_skipped (s : EngineState)
    (units : List raw_translation_unit) (dels : List deletion)
    (poss : List (channel_t × seqid_t)) :
    DeliverUpdates s units dels poss =
      DeliverUpdates s (units.filter wellFormedUnit) dels poss ∧
    ∀ ch p, (DeliverUpdates s units dels poss).2 = none → (ch, p) ∈ poss →
      p ≤ curPos (GetLatestUpdatesIdentifiers (DeliverUpdates s units dels poss).1) ch := by
  constructor
  · unfold DeliverUpdates applyBatch
    rw [filter_wf_fresh]
  · intro ch p hnone hmem
    cases hb : applyBatch s.model s.cursor units dels with
    | error e =>
      rw [DeliverUpdates_of_error s units dels poss e hb] at hnone
      cases hnone
    | ok m2 =>
      rw [DeliverUpdates_of_ok s units dels poss m2 hb]
      exact advanceAll_mem_le poss s.cursor ch p hmem

/-- Engine state of the malformed-record example: channel 3 already applied up
to position 10 (the worked example of the spec). -/
def exMalfState : EngineState :=
  { configWeights := [], liveWeights := []
    model := { entries := [], poison := [] }, cursor := [(3, 10)] }

/-- A well-formed record for channel 3. -/
def exGoodUnit : raw_translation_unit :=
  { channel := 3, position := 14, memory := 2, source := "a b", target := "c"
    alignment := [(0, 0), (1, 0)] }

/-- A malformed record: alignment points past the single source token. -/
def exBadUnit : raw_translation_unit :=
  { channel := 3, position := 15, memory := 2, source := "a", target := "c"
    alignment := [(4, 0)] }

/-- Witness for C8: with one malformed record in the batch, the batch equals
the batch without it, and the cursor still reaches channel 3, position 15. -/
theorem DeliverUpdates_malformed_record_skipped_witness :
    DeliverUpdates exMalfState [exGoodUnit, exBadUnit] [] [(3, 15)] =
      DeliverUpdates exMalfState ([exGoodUnit, exBadUnit].filter wellFormedUnit) [] [(3, 15)] ∧
    15 ≤ curPos
      (GetLatestUpdatesIdentifiers
        (DeliverUpdates exMalfState [exGoodUnit, exBadUnit] [] [(3, 15)]).1) 3 :=
  ⟨(DeliverUpdates_malformed_record_skipped exMalfState [exGoodUnit, exBadUnit] [] [(3, 15)]).1,
   (DeliverUpdates_malformed_record_skipped exMalfState [exGoodUnit, exBadUnit] [] [(3, 15)]).2
     3 15 (by decide) (by decide)⟩

/-- C2: delivering the same batch a second time is idempotent: provided every
record of the batch is covered by the batch's channel positions (the upstream
contract), a successful delivery followed by a replay of the very same batch
leaves the engine state — model content and Channel Cursor Registry —
exactly as after the first delivery: the replayed positions are silently
skipped, not fatal. -/
theorem DeliverUpdates_idempotent (s s1 : EngineState)
    (units : List raw_translation_unit) (dels : List deletion)
    (poss : List (channel_t × seqid_t))
    (hU : ∀ u ∈ units, ∃ p, (u.channel, p) ∈ poss ∧ u.position ≤ p)
    (hD : ∀ d ∈ dels, ∃ p, (d.channel, p) ∈ poss ∧ d.position ≤ p)
    (h1 : DeliverUpdates s units dels poss = (s1, none)) :
    DeliverUpdates s1 units dels poss = (s1, none) := by
  cases hb : applyBatch s.model s.cursor units dels with
  | error e =>
    rw [DeliverUpdates_of_error s units dels poss e hb] at h1
    have := congrArg Prod.snd h1
    simp at this
  | ok m2 =>
    rw [DeliverUpdates_of_ok s units dels poss m2 hb] at h1
    have hs1 : s1 = { s with model := m2, cursor := advanceAll s.cursor poss } := by
      have := congrArg Prod.fst h1
      simpa using this.symm
    subst hs1
    have hcur : ∀ chp ∈ poss, chp.2 ≤ curPos (advanceAll s.cursor poss) chp.1 := by
      intro chp hm
      obtain ⟨ch, p⟩ := chp
      exact advanceAll_mem_le poss s.cursor ch p hm
    have hfd : freshDels (advanceAll s.cursor poss) dels = [] := by
      apply List.filter_eq_nil_iff.mpr
      intro d hd
      obtain ⟨p, hmem, hle⟩ := hD d hd
      have hp : p ≤ curPos (advanceAll s.cursor poss) d.channel :=
        advanceAll_mem_le poss s.cursor d.channel p hmem
      simpa using not_lt.mpr (le_trans hle hp)
    have hfu : freshUnits (advanceAll s.cursor poss) units = [] := by
      apply List.filter_eq_nil_iff.mpr
      intro u hu
      obtain ⟨p, hmem, hle⟩ := hU u hu
      have hp : p ≤ curPos (advanceAll s.cursor poss) u.channel :=
        advanceAll_mem_le poss s.cursor u.channel p hmem
      simpa using not_lt.mpr (le_trans hle hp)
    have hab : applyBatch m2 (advanceAll s.cursor poss) units dels = .ok m2 := by
      unfold applyBatch
      rw [hfd, hfu]
      rfl
    have hres := DeliverUpdates_of_ok
      { s with model := m2, cursor := advanceAll s.cursor poss } units dels poss m2 hab
    rw [hres, advanceAll_eq_self (advanceAll s.cursor poss) poss hcur]

/-- Initial engine state of the replay example: empty model, empty cursor. -/
def exReplayState : EngineState :=
  { configWeights := [], liveWeights := []
    model := { entries := [], poison := [] }, cursor := [] }

/-- Update record of the replay example (channel 1, position 5, memory 7). -/
def exReplayUnit : raw_translation_unit :=
  { channel := 1, position := 5, memory := 7, source := "a", target := "b", alignment := [] }

/-- Deletion record of the replay example (channel 1, position 4, memory 9). -/
def exReplayDel : deletion := { channel := 1, position := 4, memory := 9 }

/-- Engine state after the first delivery of the replay example. -/
def exReplayAfter : EngineState :=
  { configWeights := [], liveWeights := []
    model := { entries := [{ memory := 7, source := "a", target := "b", alignment := [] }]
               poison := [] }
    cursor := [(1, 5)] }

/-- Witness for C2: replaying the concrete batch over the state produced by
its first delivery changes nothing and reports no error. -/
theorem DeliverUpdates_idempotent_witness :
    DeliverUpdates exReplayAfter [exReplayUnit] [exReplayDel] [(1, 5)] = (exReplayAfter, none) :=
  DeliverUpdates_idempotent exReplayState exReplayAfter [exReplayUnit] [exReplayDel] [(1, 5)]
    (by
      intro u hu
      rw [List.mem_singleton] at hu
      subst hu
      exact ⟨5, by decide, by decide⟩)
    (by
      intro d hd
      rw [List.mem_singleton] at hd
      subst hd
      exact ⟨5, by decide, by decide⟩)
    (by decide)

theorem applyAdditions_entries_mono (l : List raw_translation_unit) (m m2 : Model)
    (h : applyAdditions m l = .ok m2) (e : TMEntry) (he : e ∈ m.entries) :
    e ∈ m2.entries := by
  induction l generalizing m with
  | nil =>
    simp only [applyAdditions] at h
    cases h
    exact he
  | cons hd tl ih =>
    unfold applyAdditions at h
    by_cases hp : hd.memory ∈ m.poison
    · rw [if_pos hp] at h; cases h
    · rw [if_neg hp] at h
      exact ih _ h (List.mem_append_left _ he)

theorem applyAdditions_mem (l : List raw_translation_unit) (m m2 : Model)
    (h : applyAdditions m l = .ok m2) (u : raw_translation_unit) (hu : u ∈ l) :
    toEntry u ∈ m2.entries := by
  induction l generalizing m with
  | nil => cases hu
  | cons hd tl ih =>
    unfold applyAdditions at h
    by_cases hp : hd.memory ∈ m.poison
    · rw [if_pos hp] at h; cases h
    · rw [if_neg hp] at h
      rcases List.mem_cons.mp hu with heq | htl
      · subst heq
        exact applyAdditions_entries_mono tl _ m2 h (toEntry u) (by simp)
      · exact ih _ h htl

/-- Initial engine state of the same-batch add+delete example. -/
def exAddDelState : EngineState :=
  { configWeights := [], liveWeights := []
    model := { entries := [], poison := [] }, cursor := [] }

/-- Addition referencing memory 7. -/
def exAddDelUnit : raw_translation_unit :=
  { channel := 1, position := 1, memory := 7, source := "a", target := "b", alignment := [] }

/-- Deletion referencing the same memory 7 in the same batch. -/
def exAddDelDel : deletion := { channel := 1, position := 1, memory := 7 }

/-- C5 counterexample: in a batch containing both an addition and a deletion
of memory 7, deletions are applied first, so the addition is applied after the
deletion and memory 7 is present — not absent, as the claim states — in the
model after the batch. -/
theorem DeliverUpdates_same_batch_add_delete_counterexample :
    ¬ (∀ e ∈ (DeliverUpdates exAddDelState [exAddDelUnit] [exAddDelDel] [(1, 1)]).1.model.entries,
        e.memory ≠ 7) := by decide

/-- C5 amended: `DeliverUpdates` applies all deletions of the batch before any
additions; consequently a same-batch deletion cannot retract a same-batch
addition: every fresh, well-formed addition of a successfully delivered batch
is present in the model afterwards, even when the batch also carries a
deletion of the same memory id (only entries predating the batch are
removed). -/
theorem DeliverUpdates_addition_survives (s s2 : EngineState)
    (units : List raw_translation_unit) (dels : List deletion)
    (poss : List (channel_t × seqid_t)) (u : raw_translation_unit)
    (hu : u ∈ units) (hwf : wellFormedUnit u = true)
    (hfresh : curPos s.cursor u.channel < u.position)
    (h : DeliverUpdates s units dels poss = (s2, none)) :
    toEntry u ∈ s2.model.entries := by
  cases hb : applyBatch s.model s.cursor units dels with
  | error e =>
    rw [DeliverUpdates_of_error s units dels poss e hb] at h
    have := congrArg Prod.snd h
    simp at this
  | ok m2 =>
    rw [DeliverUpdates_of_ok s units dels poss m2 hb] at h
    have hs2 : s2 = { s with model := m2, cursor := advanceAll s.cursor poss } := by
      have := congrArg Prod.fst h
      simpa using this.symm
    subst hs2
    unfold applyBatch at hb
    cases hd : applyDeletions s.model (freshDels s.cursor dels) with
    | error e => rw [hd] at hb; cases hb
    | ok m1 =>
      rw [hd] at hb
      have humem : u ∈ (freshUnits s.cursor units).filter wellFormedUnit := by
        refine List.mem_filter.mpr ⟨?_, hwf⟩
        exact List.mem_filter.mpr ⟨hu, by simpa using hfresh⟩
      exact applyAdditions_mem _ m1 m2 hb u humem

/-- Witness for C5 (amended): the concrete add+delete batch on memory 7 leaves
the added entry present in the model. -/
theorem DeliverUpdates_addition_survives_witness :
    toEntry exAddDelUnit ∈
      (DeliverUpdates exAddDelState [exAddDelUnit] [exAddDelDel] [(1, 1)]).1.model.entries := by
  have h : DeliverUpdates exAddDelState [exAddDelUnit] [exAddDelDel] [(1, 1)] =
      ((DeliverUpdates exAddDelState [exAddDelUnit] [exAddDelDel] [(1, 1)]).1, none) := by decide
  exact DeliverUpdates_addition_survives exAddDelState _ [exAddDelUnit] [exAddDelDel] [(1, 1)]
    exAddDelUnit (by decide) (by decide) (by decide) h

theorem lookupW_overlay (arg prev : WeightMap) (name : String) :
    lookupW (overlay arg prev) name =
      (lookupW prev name).map (fun v => (lookupW arg name).getD v) := by
  induction prev with
  | nil => rfl
  | cons hd tl ih =>
    obtain ⟨k, v⟩ := hd
    by_cases hk : k = name
    · subst hk
      simp [overlay, lookupW]
    · simp only [overlay, List.map_cons, lookupW, if_neg hk]
      exact ih

/-- C7: `setDefaultFeatureWeights` overlays the argument onto the previous
live mapping: every feature name not present in the argument keeps exactly its
previous live weight vector, and the config-origin (on-disk) weight definition
is never mutated by the call. -/
theorem setDefaultFeatureWeights_overlay_frame (s : EngineState) (arg : WeightMap)
    (name : String) (h : lookupW arg name = none) :
    lookupW (setDefaultFeatureWeights s arg).liveWeights name =
        lookupW s.liveWeights name ∧
      (setDefaultFeatureWeights s arg).configWeights = s.configWeights := by
  constructor
  · unfold setDefaultFeatureWeights
    rw [lookupW_overlay, h]
    cases lookupW s.liveWeights name <;> rfl
  · rfl

/-- Engine state of the weight-overlay example: two registered features. -/
def exWeightState : EngineState :=
  { configWeights := [("lm", [1]), ("tm", [2, 3])]
    liveWeights := [("lm", [1]), ("tm", [2, 3])]
    model := { entries := [], poison := [] }, cursor := [] }

/-- Witness for C7: publishing a new weight vector for feature "lm" leaves
feature "tm" (absent from the argument) and the config mapping unchanged. -/
theorem setDefaultFeatureWeights_overlay_frame_witness :
    lookupW (setDefaultFeatureWeights exWeightState [("lm", [9])]).liveWeights "tm" =
        lookupW exWeightState.liveWeights "tm" ∧
      (setDefaultFeatureWeights exWeightState [("lm", [9])]).configWeights =
        exWeightState.configWeights :=
  setDefaultFeatureWeights_overlay_frame exWeightState [("lm", [9])] "tm" (by decide)

/-- C9: `getFeatureWeights` returns the live weight vector of a registered
feature, and fails with `UnknownFeatureError` when the feature is not
registered; being a pure read, it mutates no engine state. -/
theorem getFeatureWeights_spec (s : EngineState) (name : String) :
    (∀ v, lookupW s.liveWeights name = some v →
        getFeatureWeights s name = .ok v) ∧
      (lookupW s.liveWeights name = none →
        getFeatureWeights s name = .error .unknownFeature) := by
  constructor
  · intro v hv
    unfold getFeatureWeights
    rw [hv]
  · intro hv
    unfold getFeatureWeights
    rw [hv]

/-- Witness for C9: on a concrete registry, the registered feature "lm" yields
its live vector and the unknown name "xx" yields `UnknownFeatureError`. -/
theorem getFeatureWeights_spec_witness :
    getFeatureWeights exWeightState "lm" = .ok [1] ∧
      getFeatureWeights exWeightState "xx" = .error .unknownFeature :=
  ⟨(getFeatureWeights_spec exWeightState "lm").1 [1] (by decide),
   (getFeatureWeights_spec exWeightState "xx").2 (by decide)⟩

theorem runTrace_onlyBegins (tr : List WEvent) (w : WeightMap)
    (sn : List (Nat × WeightMap)) (h : onlyBegins tr = true) :
    runTrace ⟨w, sn⟩ tr = ⟨w, sn ++ (begins tr).map (fun r => (r, w))⟩ := by
  induction tr generalizing sn with
  | nil => simp [runTrace, begins]
  | cons e t ih =>
    cases e with
    | publish arg =>
      simp [onlyBegins, isBeginEvent] at h
    | beginReq r =>
      have ht : onlyBegins t = true := by
        simpa [onlyBegins, isBeginEvent] using h
      have hstep : runTrace ⟨w, sn⟩ (WEvent.beginReq r :: t) =
          runTrace ⟨w, sn ++ [(r, w)]⟩ t := rfl
      rw [hstep, ih _ ht]
      simp [begins]

theorem runTrace_append (s : TraceState) (t1 t2 : List WEvent) :
    runTrace s (t1 ++ t2) = runTrace (runTrace s t1) t2 :=
  List.foldl_append ..

/-- C1: in any interleaved execution consisting of translate requests and one
`setDefaultFeatureWeights` publish, every request's snapshot — the weight set
its whole score breakdown is computed under — is exactly one of the two
complete weight sets (the one live before the publish or the one live after),
never a mixture; requests that began before the publish hold the old set, and
every request beginning after the publish holds the new set. -/
theorem publish_snapshot_isolation (w0 arg : WeightMap) (t1 t2 : List WEvent)
    (h1 : onlyBegins t1 = true) (h2 : onlyBegins t2 = true) :
    (runTrace ⟨w0, []⟩ (t1 ++ WEvent.publish arg :: t2)).snaps =
        (begins t1).map (fun r => (r, w0)) ++
          (begins t2).map (fun r => (r, overlay arg w0)) ∧
      ∀ p ∈ (runTrace ⟨w0, []⟩ (t1 ++ WEvent.publish arg :: t2)).snaps,
        p.2 = w0 ∨ p.2 = overlay arg w0 := by
  have hrun : runTrace ⟨w0, []⟩ (t1 ++ WEvent.publish arg :: t2) =
      ⟨overlay arg w0,
        (begins t1).map (fun r => (r, w0)) ++
          (begins t2).map (fun r => (r, overlay arg w0))⟩ := by
    rw [runTrace_append, runTrace_onlyBegins t1 w0 [] h1]
    have hstep : runTrace ⟨w0, [] ++ (begins t1).map (fun r => (r, w0))⟩
        (WEvent.publish arg :: t2) =
        runTrace ⟨overlay arg w0, (begins t1).map (fun r => (r, w0))⟩ t2 := rfl
    rw [hstep, runTrace_onlyBegins t2 _ _ h2]
  constructor
  · rw [hrun]
  · rw [hrun]
    intro p hp
    rcases List.mem_append.mp hp with hl | hr
    · obtain ⟨r, _, rfl⟩ := List.mem_map.mp hl
      exact Or.inl rfl
    · obtain ⟨r, _, rfl⟩ := List.mem_map.mp hr
      exact Or.inr rfl

/-- Witness for C1: a concrete trace with a request before and a request after
the publish: the first snapshots the old set, the second the new one. -/
theorem publish_snapshot_isolation_witness :
    (runTrace ⟨[("lm", [1])], []⟩
        ([WEvent.beginReq 0] ++ WEvent.publish [("lm", [2])] :: [WEvent.beginReq 1])).snaps =
        (begins [WEvent.beginReq 0]).map (fun r => (r, [("lm", [1])])) ++
          (begins [WEvent.beginReq 1]).map
            (fun r => (r, overlay [("lm", [2])] [("lm", [1])])) :=
  (publish_snapshot_isolation [("lm", [1])] [("lm", [2])]
    [WEvent.beginReq 0] [WEvent.beginReq 1] (by decide) (by decide)).1

theorem hypLE_score (a b : hypothesis_t × Nat) (h : hypLE a b) : b.1.score ≤ a.1.score := by
  rcases h with h | ⟨h, _⟩
  · exact le_of_lt h
  · exact le_of_eq h.symm

theorem rankHyps_sorted (cs : List hypothesis_t) : List.Sorted hypLE (rankHyps cs) :=
  List.sorted_insertionSort hypLE _

theorem assembleHyps_length_pos (cs : List hypothesis_t) (k : Nat) :
    1 ≤ (assembleHyps cs k).length := by
  unfold assembleHyps
  cases rankHyps cs with
  | nil => simp
  | cons top rest => simp

theorem assembleHyps_length_le (cs : List hypothesis_t) (k : Nat) :
    (assembleHyps cs k).length ≤ k + 1 := by
  unfold assembleHyps
  cases rankHyps cs with
  | nil => simp
  | cons top rest =>
    simp only [List.length_map, List.length_cons, List.length_take]
    exact Nat.add_le_add_right (Nat.min_le_left k rest.length) 1

theorem assembleHyps_sorted (cs : List hypothesis_t) (k : Nat) :
    List.Sorted (fun a b : hypothesis_t => b.score ≤ a.score) (assembleHyps cs k) := by
  have hs := rankHyps_sorted cs
  unfold assembleHyps
  cases h : rankHyps cs with
  | nil => simp
  | cons top rest =>
    rw [h] at hs
    have hsub : (top :: rest.take k).Sublist (top :: rest) :=
      List.Sublist.cons₂ top (List.take_sublist k rest)
    have hp : List.Pairwise hypLE (top :: rest.take k) := List.Pairwise.sublist hsub hs
    exact List.pairwise_map.mpr (hp.imp (fun hab => hypLE_score _ _ hab))

/-- C6: `translate` always returns at least one hypothesis (the top one) and
at most `k + 1` hypotheses in total for n-best size `k`, in non-increasing
score order; the ranking is produced by the deterministic total order
(descending score, ties broken by hypothesis text, then by discovery order),
so equal inputs always produce the same hypothesis ordering. -/
theorem translate_nbest_bounds
    (search : EngineState → String → Option (List (String × ℚ)) → List hypothesis_t)
    (s : EngineState) (text : String) (ctx : Option (List (String × ℚ))) (k : Nat) :
    1 ≤ (MosesDecoder.translate search s text ctx k).hypotheses.length ∧
      (MosesDecoder.translate search s text ctx k).hypotheses.length ≤ k + 1 ∧
      List.Sorted (fun a b : hypothesis_t => b.score ≤ a.score)
        (MosesDecoder.translate search s text ctx k).hypotheses ∧
      List.Sorted hypLE (rankHyps (search s text ctx)) := by
  have hh : (MosesDecoder.translate search s text ctx k).hypotheses =
      assembleHyps (search s text ctx) k := rfl
  rw [hh]
  exact ⟨assembleHyps_length_pos _ k, assembleHyps_length_le _ k,
    assembleHyps_sorted _ k, rankHyps_sorted _⟩

/-- C10: the not-tunable sentinel `UNTUNEABLE_COMPONENT` equals `FLT_MAX`, the
maximal representable (finite single-precision) float — itself a representable
value — and it is distinct from every other representable weight value: any
representable value other than the sentinel is strictly below it. -/
theorem UNTUNEABLE_COMPONENT_is_max_float :
    UNTUNEABLE_COMPONENT = FLT_MAX ∧ isFloat32 UNTUNEABLE_COMPONENT ∧
      ∀ q : ℚ, isFloat32 q → q ≠ UNTUNEABLE_COMPONENT → q < UNTUNEABLE_COMPONENT := by
  refine ⟨rfl, ⟨2 ^ 24 - 1, 104, by norm_num, by norm_num, by norm_num, ?_⟩, ?_⟩
  · show UNTUNEABLE_COMPONENT = ((2 ^ 24 - 1 : ℤ) : ℚ) * (2 : ℚ) ^ (104 : ℤ)
    norm_num [UNTUNEABLE_COMPONENT, FLT_MAX]
  · rintro q ⟨m, e, hm, he1, he2, rfl⟩ hne
    refine lt_of_le_of_ne ?_ hne
    have h2e : (0 : ℚ) < 2 ^ e := by positivity
    have step1 : (m : ℚ) * 2 ^ e ≤ |(m : ℚ)| * 2 ^ e :=
      mul_le_mul_of_nonneg_right (le_abs_self _) h2e.le
    have step2 : |(m : ℚ)| * 2 ^ e ≤ ((2 ^ 24 - 1 : ℤ) : ℚ) * 2 ^ e := by
      refine mul_le_mul_of_nonneg_right ?_ h2e.le
      rw [← Int.cast_abs]
      exact_mod_cast hm
    have step3 : ((2 ^ 24 - 1 : ℤ) : ℚ) * 2 ^ e ≤
        ((2 ^ 24 - 1 : ℤ) : ℚ) * (2 : ℚ) ^ (104 : ℤ) :=
      mul_le_mul_of_nonneg_left (zpow_le_zpow_right₀ (by norm_num) he2) (by norm_num)
    have hmax : ((2 ^ 24 - 1 : ℤ) : ℚ) * (2 : ℚ) ^ (104 : ℤ) = UNTUNEABLE_COMPONENT := by
      norm_num [UNTUNEABLE_COMPONENT, FLT_MAX]
    calc (m : ℚ) * 2 ^ e ≤ |(m : ℚ)| * 2 ^ e := step1
      _ ≤ ((2 ^ 24 - 1 : ℤ) : ℚ) * 2 ^ e := step2
      _ ≤ ((2 ^ 24 - 1 : ℤ) : ℚ) * (2 : ℚ) ^ (104 : ℤ) := step3
      _ = UNTUNEABLE_COMPONENT := hmax

/-- Witness for C10: the ordinary weight value 1 (a representable float) is
distinct from — strictly below — the sentinel. -/
theorem UNTUNEABLE_COMPONENT_is_max_float_witness : (1 : ℚ) < UNTUNEABLE_COMPONENT :=
  UNTUNEABLE_COMPONENT_is_max_float.2.2 1
    ⟨1, 0, by norm_num, by norm_num, by norm_num, by norm_num⟩
    (by norm_num [UNTUNEABLE_COMPONENT, FLT_MAX])
